import Mathlib

/-!
Shallow embedding of the go-arena repository (package `arena`).

The embedding follows `src/arena.go` line by line.  A chunk (`[]byte` obtained
from `make`) is represented by its capacity; chunk contents never influence the
control flow of the engine, so the state keeps the list of capacities, the base
chunk size, the active chunk index, the cursor offset, the cached current-chunk
pointer (recorded as the position `curStartIdx` of the chunk the pointer points
into) and the cached capacity `curEnd`, and the retention budget.  Go `int`
values are modelled as unbounded `Int`; the cursor arithmetic of the engine
stays far below the 64-bit bounds in everything treated here, while the one
place where the source itself tests for 64-bit overflow (`MakeSlice`) is
modelled with an explicit wrap-around.
-/

namespace ArenaModel

/-- A byte range handed out by the allocator: the position of the owning chunk
in the chunk list, the start offset inside that chunk, and the size. -/
structure Region where
  chunk : Nat
  start : Int
  size : Int
deriving DecidableEq, Repr

/-- Two regions are disjoint when they live in different chunks or their byte
ranges do not intersect. -/
def regionsDisjoint (r s : Region) : Prop :=
  r.chunk ≠ s.chunk ∨ r.start + r.size ≤ s.start ∨ s.start + s.size ≤ r.start

instance (r s : Region) : Decidable (regionsDisjoint r s) := by
  unfold regionsDisjoint; infer_instance

/-- State of `Arena` from `src/arena.go`.  `chunks` holds the capacity of each
chunk, `curStartIdx` records which chunk the cached `curStart` pointer points
into and `curEnd` mirrors the cached `cap` of that chunk. -/
@[ext]
structure Arena where
  chunks : List Int
  chunkSize : Int
  chunkIndex : Nat
  offset : Int
  curStartIdx : Nat
  curEnd : Int
  maxRetain : Int
deriving DecidableEq, Repr

/-- Capacity of the chunk at position `i` (Go indexes the slice directly; all
uses in the source are in bounds, the default 0 is never taken on the states
the source reaches). -/
def capAt (chunks : List Int) (i : Nat) : Int :=
  chunks.getD i 0

/-- Body of `NewArena` after the positive-size check: one fresh chunk of the
base size, cursor at its start, and the retention budget defaulted to ten
chunks when the given value is not positive. -/
def mkArena (size maxRetained : Int) : Arena :=
  { chunks := [size]
    chunkSize := size
    chunkIndex := 0
    offset := 0
    curStartIdx := 0
    curEnd := size
    maxRetain := if maxRetained ≤ 0 then size * 10 else maxRetained }

/-- `NewArena`: panics (`none`) when the requested chunk size is not
positive. -/
def newArena (size maxRetained : Int) : Option Arena :=
  if size ≤ 0 then none else some (mkArena size maxRetained)

/-- The retention loop of `Reset`: running total of capacities; the first chunk
at which the total exceeds the budget yields `keepIndex = i + 1` (here returned
relative to the start of the walked list), `none` when the budget is never
exceeded. -/
def keepScan (budget : Int) (total : Int) : List Int → Option Nat
  | [] => none
  | c :: cs =>
    if total + c > budget then some 1
    else (keepScan budget (total + c) cs).map (· + 1)

/-- `keepIndex` as computed by `Reset`: the loop result, or the list length when
the loop never breaks. -/
def keepIndexOf (chunks : List Int) (budget : Int) : Nat :=
  (keepScan budget 0 chunks).getD chunks.length

/-- `Reset` from `src/arena.go`: zero the cursor, then apply the retention
decision (empty store, oversized first chunk, or the cumulative walk). -/
def reset (a : Arena) : Arena :=
  if a.chunks.isEmpty then
    { a with chunkIndex := 0, offset := 0, chunks := [a.chunkSize]
             curStartIdx := 0, curEnd := a.chunkSize }
  else if capAt a.chunks 0 > a.maxRetain then
    { a with chunkIndex := 0, offset := 0, chunks := [a.chunkSize]
             curStartIdx := 0, curEnd := a.chunkSize }
  else
    let k := keepIndexOf a.chunks a.maxRetain
    { a with chunkIndex := 0, offset := 0
             curStartIdx := 0, curEnd := capAt a.chunks 0
             chunks := if k < a.chunks.length then a.chunks.take k else a.chunks }

/-- The append branch of `ensure`: a new chunk of size
`max(chunkSize, size)` is appended at the end of the list, while `chunkIndex`
is merely incremented; the cached pointer is set to the appended chunk
(`curStartIdx` is the old list length, which differs from the new `chunkIndex`
whenever a later chunk already existed). -/
def appendChunk (a : Arena) (size : Int) : Arena :=
  let newSize := if size > a.chunkSize then size else a.chunkSize
  { a with chunks := a.chunks ++ [newSize]
           chunkIndex := a.chunkIndex + 1
           offset := 0
           curStartIdx := a.chunks.length
           curEnd := newSize }

/-- `ensure` from `src/arena.go`: return if the active chunk still fits `size`
bytes, otherwise switch to the immediately following chunk when it is large
enough, otherwise append a fresh chunk. -/
def ensure (a : Arena) (size : Int) : Arena :=
  if size ≤ capAt a.chunks a.chunkIndex - a.offset then a
  else if a.chunkIndex + 1 < a.chunks.length then
    if size ≤ capAt a.chunks (a.chunkIndex + 1) then
      { a with chunkIndex := a.chunkIndex + 1
               offset := 0
               curStartIdx := a.chunkIndex + 1
               curEnd := capAt a.chunks (a.chunkIndex + 1) }
    else appendChunk a size
  else appendChunk a size

/-- One bump attempt of `allocRaw` (its fast path), for already normalised
alignment.  The source computes the padding with the bit trick
`(-offset) & (align-1)`, which for a power-of-two positive `align` is exactly
the Euclidean remainder of `-offset` modulo `align` used here. -/
def allocTry (a : Arena) (size align : Int) : Arena × Option Region :=
  let padding := Int.emod (-a.offset) align
  let newOffset := a.offset + padding + size
  if newOffset ≤ a.curEnd then
    ({ a with offset := newOffset }, some ⟨a.curStartIdx, a.offset + padding, size⟩)
  else (a, none)

/-- `growAndAlloc`: make room for `size + align` bytes and retry.  In the
source the retry is a recursive call to `allocRaw`; on every state reached in
this development the retry succeeds at once (after `ensure` the offset is 0 in
a chunk of capacity at least `size + align`, or the early return of `ensure`
guarantees the fit), so a single attempt is the faithful rendering. -/
def growAndAlloc (a : Arena) (size align : Int) : Arena × Option Region :=
  allocTry (ensure a (size + align)) size align

/-- `allocRaw` from `src/arena.go`: nil result for a non-positive size,
alignment normalised to at least 1, then the bump fast path with fallback to
the growth policy. -/
def allocRaw (a : Arena) (size align : Int) : Arena × Option Region :=
  if size ≤ 0 then (a, none)
  else
    let al := if align ≤ 0 then 1 else align
    let r := allocTry a size al
    match r.2 with
    | some reg => (r.1, some reg)
    | none => growAndAlloc a size al

/-- State reached after one allocation request (size, align). -/
def step (a : Arena) (r : Int × Int) : Arena :=
  (allocRaw a r.1 r.2).1

/-- State reached after a whole workload of allocation requests. -/
def runSession (a : Arena) (w : List (Int × Int)) : Arena :=
  w.foldl step a

end ArenaModel

namespace ArenaModel

/-- Retention walk as the specification words it: walk the chunks in order
accumulating capacity; keep exactly the chunks up to and including the first
one at which the cumulative capacity exceeds the budget; keep everything when
the budget is never exceeded. -/
def retainUpTo (budget : Int) (acc : Int) : List Int → List Int
  | [] => []
  | c :: cs => if acc + c > budget then [c] else c :: retainUpTo budget (acc + c) cs

/-- Chunk list after a reset, as the specification describes it: empty store
and oversized first chunk give one fresh chunk of base size, otherwise the
cumulative retention walk decides. -/
def resetChunksSpec (a : Arena) : List Int :=
  if a.chunks.isEmpty then [a.chunkSize]
  else if capAt a.chunks 0 > a.maxRetain then [a.chunkSize]
  else retainUpTo a.maxRetain 0 a.chunks

theorem take_keepScan (budget : Int) :
    ∀ (cs : List Int) (acc : Int),
      cs.take ((keepScan budget acc cs).getD cs.length) = retainUpTo budget acc cs
  | [], acc => by simp [keepScan, retainUpTo]
  | c :: cs, acc => by
    by_cases h : acc + c > budget
    · simp [keepScan, retainUpTo, h]
    · have ih := take_keepScan budget cs (acc + c)
      simp only [keepScan, retainUpTo, if_neg h]
      cases hscan : keepScan budget (acc + c) cs with
      | none =>
        rw [hscan] at ih
        simp only [Option.getD_none] at ih
        simp only [Option.map_none', Option.getD_none, List.length_cons,
          List.take_succ_cons, ih]
      | some k =>
        rw [hscan] at ih
        simp only [Option.getD_some] at ih
        simp only [Option.map_some', Option.getD_some, List.take_succ_cons, ih]

theorem keepIndexOf_le (chunks : List Int) (budget : Int)
    (h : ¬ keepIndexOf chunks budget < chunks.length) :
    chunks.take (keepIndexOf chunks budget) = chunks :=
  List.take_of_length_le (Nat.le_of_not_lt h)

/-- On a nonempty store whose first chunk fits the budget, `Reset` keeps the
retention walk of the specification. -/
theorem reset_chunks_walk (a : Arena) (h1 : ¬ a.chunks.isEmpty)
    (h2 : ¬ capAt a.chunks 0 > a.maxRetain) :
    (reset a).chunks = retainUpTo a.maxRetain 0 a.chunks := by
  have key : a.chunks.take (keepIndexOf a.chunks a.maxRetain)
      = retainUpTo a.maxRetain 0 a.chunks := take_keepScan a.maxRetain a.chunks 0
  simp only [reset, if_neg h1, if_neg h2]
  by_cases hk : keepIndexOf a.chunks a.maxRetain < a.chunks.length
  · rw [if_pos hk]; exact key
  · rw [if_neg hk, ← key, keepIndexOf_le a.chunks a.maxRetain hk]

theorem retainUpTo_ne_nil (budget acc : Int) (c : Int) (cs : List Int) :
    retainUpTo budget acc (c :: cs) ≠ [] := by
  unfold retainUpTo
  by_cases h : acc + c > budget <;> simp [h]

theorem retainUpTo_head (budget acc : Int) (c : Int) (cs : List Int) :
    capAt (retainUpTo budget acc (c :: cs)) 0 = c := by
  unfold retainUpTo
  by_cases h : acc + c > budget <;> simp [h, capAt]

theorem retainUpTo_idem (budget : Int) :
    ∀ (cs : List Int) (acc : Int),
      retainUpTo budget acc (retainUpTo budget acc cs) = retainUpTo budget acc cs
  | [], acc => by simp [retainUpTo]
  | c :: cs, acc => by
    by_cases h : acc + c > budget
    · simp [retainUpTo, h]
    · simp [retainUpTo, h, retainUpTo_idem budget cs (acc + c)]

theorem retainUpTo_sum_le (budget : Int) :
    ∀ (cs : List Int) (acc : Int), (∀ c ∈ cs, 0 ≤ c) → acc ≤ budget →
      acc + (retainUpTo budget acc cs).sum ≤
        budget + (retainUpTo budget acc cs).getLastD 0
  | [], acc, _, hacc => by simpa [retainUpTo] using hacc
  | c :: cs, acc, hpos, hacc => by
    by_cases h : acc + c > budget
    · simp only [retainUpTo, if_pos h, List.sum_cons, List.sum_nil,
        List.getLastD_cons, List.getLastD_nil]
      omega
    · have hc : 0 ≤ c := hpos c (by simp)
      have ih := retainUpTo_sum_le budget cs (acc + c)
        (fun x hx => hpos x (by simp [hx])) (by omega)
      simp only [retainUpTo, if_neg h, List.sum_cons, List.getLastD_cons]
      cases hcs : retainUpTo budget (acc + c) cs with
      | nil =>
        rw [hcs] at ih
        simp only [List.sum_nil, List.getLastD_nil] at ih
        simp only [List.sum_nil, List.getLastD_nil]
        omega
      | cons d ds =>
        rw [hcs] at ih
        rw [List.getLastD_cons] at ih ⊢
        simp only [List.sum_cons] at ih ⊢
        omega

end ArenaModel

namespace ArenaModel

theorem reset_chunkIndex (a : Arena) : (reset a).chunkIndex = 0 := by
  unfold reset; split_ifs <;> rfl

theorem reset_offset (a : Arena) : (reset a).offset = 0 := by
  unfold reset; split_ifs <;> rfl

theorem reset_curStartIdx (a : Arena) : (reset a).curStartIdx = 0 := by
  unfold reset; split_ifs <;> rfl

theorem reset_chunkSize (a : Arena) : (reset a).chunkSize = a.chunkSize := by
  unfold reset; split_ifs <;> rfl

theorem reset_maxRetain (a : Arena) : (reset a).maxRetain = a.maxRetain := by
  unfold reset; split_ifs <;> rfl

/-- The chunk list a reset leaves behind is exactly the one the specification
describes. -/
theorem reset_chunks (a : Arena) : (reset a).chunks = resetChunksSpec a := by
  unfold resetChunksSpec
  by_cases h1 : a.chunks.isEmpty
  · simp [reset, h1]
  · by_cases h2 : capAt a.chunks 0 > a.maxRetain
    · simp [reset, h1, h2]
    · rw [if_neg h1, if_neg h2]
      exact reset_chunks_walk a h1 h2

theorem resetChunksSpec_ne_nil (a : Arena) : resetChunksSpec a ≠ [] := by
  unfold resetChunksSpec
  by_cases h1 : a.chunks.isEmpty
  · simp [h1]
  · by_cases h2 : capAt a.chunks 0 > a.maxRetain
    · simp [h1, h2]
    · rw [if_neg h1, if_neg h2]
      cases hc : a.chunks with
      | nil => rw [hc] at h1; simp at h1
      | cons c cs => exact retainUpTo_ne_nil a.maxRetain 0 c cs

theorem reset_base_case (a : Arena)
    (h : a.chunks.isEmpty ∨ (¬ a.chunks.isEmpty ∧ capAt a.chunks 0 > a.maxRetain)) :
    reset a = { a with chunkIndex := 0, offset := 0, chunks := [a.chunkSize], curStartIdx := 0, curEnd := a.chunkSize } := by
  rcases h with h1 | ⟨h1, h2⟩
  · unfold reset; rw [if_pos h1]
  · unfold reset; rw [if_neg h1, if_pos h2]

theorem reset_curEnd (a : Arena) : (reset a).curEnd = capAt (reset a).chunks 0 := by
  by_cases h1 : a.chunks.isEmpty
  · rw [reset_base_case a (Or.inl h1)]; rfl
  · by_cases h2 : capAt a.chunks 0 > a.maxRetain
    · rw [reset_base_case a (Or.inr ⟨h1, h2⟩)]; rfl
    · have hch : (reset a).chunks = retainUpTo a.maxRetain 0 a.chunks :=
        reset_chunks_walk a h1 h2
      have hcE : (reset a).curEnd = capAt a.chunks 0 := by
        unfold reset; rw [if_neg h1, if_neg h2]
      rw [hcE, hch]
      cases hc : a.chunks with
      | nil => rw [hc] at h1; simp at h1
      | cons c cs => rw [retainUpTo_head]; rfl

/-- Applying the specification retention decision to an already reset arena
changes nothing. -/
theorem resetChunksSpec_reset (a : Arena) : resetChunksSpec (reset a) = (reset a).chunks := by
  by_cases h1 : a.chunks.isEmpty
  · rw [reset_base_case a (Or.inl h1)]
    by_cases h2 : a.chunkSize > a.maxRetain
    · simp [resetChunksSpec, capAt, h2]
    · simp [resetChunksSpec, capAt, h2, retainUpTo]
  · by_cases h2 : capAt a.chunks 0 > a.maxRetain
    · rw [reset_base_case a (Or.inr ⟨h1, h2⟩)]
      by_cases h3 : a.chunkSize > a.maxRetain
      · simp [resetChunksSpec, capAt, h3]
      · simp [resetChunksSpec, capAt, h3, retainUpTo]
    · have hch : (reset a).chunks = retainUpTo a.maxRetain 0 a.chunks :=
        reset_chunks_walk a h1 h2
      cases hc : a.chunks with
      | nil => rw [hc] at h1; simp at h1
      | cons c cs =>
        have hhead : capAt (reset a).chunks 0 = c := by
          rw [hch, hc, retainUpTo_head]
        have hcle : ¬ c > a.maxRetain := by
          have : capAt a.chunks 0 = c := by rw [hc]; rfl
          rw [this] at h2; exact h2
        have hemp : ¬ (reset a).chunks.isEmpty := by
          rw [hch, hc]
          have := retainUpTo_ne_nil a.maxRetain 0 c cs
          simpa [List.isEmpty_iff] using this
        unfold resetChunksSpec
        rw [if_neg hemp, reset_maxRetain, hhead, if_neg hcle, hch]
        exact retainUpTo_idem a.maxRetain a.chunks 0

end ArenaModel

namespace ArenaModel

/-- State of `ArenaPool`: the cached idle arenas of the underlying
concurrency-safe pool are modelled as a list (the pool behaviour proved here
does not depend on which cached arena a Get happens to receive), together with
the construction parameters used by the New callback. -/
structure ArenaPool where
  items : List Arena
  chunkSize : Int
  maxRetained : Int
deriving DecidableEq, Repr

/-- `NewArenaPool`: panics (`none`) on a non-positive chunk size and defaults
the retention budget exactly as `NewArena` does. -/
def newArenaPool (chunkSize maxRetained : Int) : Option ArenaPool :=
  if chunkSize ≤ 0 then none
  else some { items := []
              chunkSize := chunkSize
              maxRetained := if maxRetained ≤ 0 then chunkSize * 10 else maxRetained }

/-- `Get`: take a cached arena, or let the New callback build one with the pool
parameters (the pool constructor has already checked the chunk size, so the
`NewArena` body applies directly), then Reset it before handing it out. -/
def poolGet (p : ArenaPool) : Arena × ArenaPool :=
  match p.items with
  | a :: rest => (reset a, { p with items := rest })
  | [] => (reset (mkArena p.chunkSize p.maxRetained), p)

/-- `Put`: a nil arena is ignored, otherwise the arena is Reset and cached. -/
def poolPut (p : ArenaPool) (a : Option Arena) : ArenaPool :=
  match a with
  | none => p
  | some a => { p with items := reset a :: p.items }

end ArenaModel

namespace ArenaModel

/-- C1: the claim states that within one session the returned regions are
pairwise disjoint and that the offset never exceeds the capacity of the active
chunk.  The code violates it: with base size 4 and budget 100, a session of a
4-byte and a 3-byte request leaves two 4-byte chunks; after a Reset retaining
both, a 10-byte request makes `ensure` append an 11-byte chunk at the end
while advancing `chunkIndex` only to the second (4-byte) chunk, so the offset
10 exceeds the 4-byte capacity of the active chunk; the following 5-byte
request then switches into the very chunk already being written, and the two
returned regions overlap in chunk 2 at offsets 0..10 and 0..5. -/
theorem c1_session_overlap :
    (allocRaw (runSession (reset (runSession (mkArena 4 100) [(4, 1), (3, 1)])) [(10, 1)]) 5 1).2
        = some ⟨2, 0, 5⟩ ∧
    (allocRaw (reset (runSession (mkArena 4 100) [(4, 1), (3, 1)])) 10 1).2 = some ⟨2, 0, 10⟩ ∧
    ¬ regionsDisjoint ⟨2, 0, 10⟩ ⟨2, 0, 5⟩ ∧
    (runSession (reset (runSession (mkArena 4 100) [(4, 1), (3, 1)])) [(10, 1)]).chunkIndex = 1 ∧
    capAt (runSession (reset (runSession (mkArena 4 100) [(4, 1), (3, 1)])) [(10, 1)]).chunks 1 = 4 ∧
    (runSession (reset (runSession (mkArena 4 100) [(4, 1), (3, 1)])) [(10, 1)]).offset = 10 := by
  refine ⟨?_, ?_, ?_, ?_, ?_, ?_⟩ <;> decide

/-- C2: `Reset` sets the active chunk index and the offset to 0 and leaves
exactly the chunk list described by the retention decision of the
specification: a fresh base chunk for an empty store, a fresh base chunk when
the first chunk alone exceeds the budget, and otherwise the cumulative walk
keeping the chunks up to and including the first one at which the cumulative
capacity exceeds the budget. -/
theorem c2_reset_contract (a : Arena) :
    (reset a).chunkIndex = 0 ∧ (reset a).offset = 0 ∧
      (reset a).chunks = resetChunksSpec a :=
  ⟨reset_chunkIndex a, reset_offset a, reset_chunks a⟩

set_option maxRecDepth 40000 in
/-- C3: the claim (and the test TestSmartReset of the repository) say a newly
created chunk has size exactly max(baseChunkSize, requestedSize); the code
passes `size + align` to `ensure`, so the appended chunk has capacity
max(baseChunkSize, requestedSize + align).  On the TestSmartReset workload
(base size 1, one hundred 1-byte requests of alignment 1) the test demands 100
chunks, but every appended chunk has capacity max(1, 2) = 2 and the store ends
with 51 chunks; likewise two 8-byte requests on a fresh 8-byte arena leave
chunk capacities [8, 9] where the claim demands [8, 8]. -/
theorem c3_new_chunk_size_mismatch :
    (runSession (mkArena 1 2) (List.replicate 100 ((1 : Int), (1 : Int)))).chunks.length = 51 ∧
    (allocRaw (allocRaw (mkArena 8 0) 8 1).1 8 1).1.chunks = [8, 9] := by
  refine ⟨?_, ?_⟩ <;> decide

/-- C4: a raw allocation request with a negative size fails before any state
mutation: the nil result surfaces immediately and the arena (its chunk list,
active chunk index and offset included) is returned unchanged. -/
theorem c4_negative_size_unchanged (a : Arena) (size align : Int) (h : size < 0) :
    allocRaw a size align = (a, none) := by
  unfold allocRaw
  rw [if_pos (le_of_lt h)]

/-- Witness for C4 at a concrete input. -/
theorem c4_negative_size_unchanged_witness :
    (-3 : Int) < 0 ∧ allocRaw (mkArena 8 0) (-3) 7 = (mkArena 8 0, none) :=
  ⟨by decide, c4_negative_size_unchanged (mkArena 8 0) (-3) 7 (by decide)⟩

/-- C8: after a reset, the total retained capacity exceeds the budget by at
most the capacity of the last retained chunk (for an arena whose budget is
nonnegative and whose chunk capacities are nonnegative, as every arena built
by the constructors is). -/
theorem c8_retained_capacity_bound (a : Arena) (hmr : 0 ≤ a.maxRetain)
    (hpos : ∀ c ∈ a.chunks, 0 ≤ c) :
    ((reset a).chunks).sum ≤ a.maxRetain + ((reset a).chunks).getLastD 0 := by
  rw [reset_chunks]
  unfold resetChunksSpec
  by_cases h1 : a.chunks.isEmpty
  · rw [if_pos h1]
    simp only [List.sum_cons, List.sum_nil, List.getLastD_cons, List.getLastD_nil]
    omega
  · rw [if_neg h1]
    by_cases h2 : capAt a.chunks 0 > a.maxRetain
    · rw [if_pos h2]
      simp only [List.sum_cons, List.sum_nil, List.getLastD_cons, List.getLastD_nil]
      omega
    · rw [if_neg h2]
      have := retainUpTo_sum_le a.maxRetain a.chunks 0 hpos hmr
      omega

/-- Witness for C8 at a concrete arena. -/
theorem c8_retained_capacity_bound_witness :
    0 ≤ (mkArena 4 100).maxRetain ∧ (∀ c ∈ (mkArena 4 100).chunks, 0 ≤ c) ∧
      ((reset (mkArena 4 100)).chunks).sum ≤
        (mkArena 4 100).maxRetain + ((reset (mkArena 4 100)).chunks).getLastD 0 :=
  ⟨by decide, by decide,
    c8_retained_capacity_bound (mkArena 4 100) (by decide) (by decide)⟩

/-- C9: an arena handed out by the pool is always in reset state (active chunk
index 0 and offset 0), and putting back a nil arena leaves the pool
unchanged. -/
theorem c9_pool_reset_and_nil_put (p : ArenaPool) :
    (poolGet p).1.chunkIndex = 0 ∧ (poolGet p).1.offset = 0 ∧ poolPut p none = p := by
  refine ⟨?_, ?_, rfl⟩ <;>
    (cases hp : p.items <;> simp [poolGet, hp, reset_chunkIndex, reset_offset])

/-- C10: `Reset` is idempotent: a second reset right after a first one changes
nothing, so the double reset performed by a pool Put followed by a Get leaves
the arena state as a single reset would. -/
theorem c10_reset_idempotent (a : Arena) : reset (reset a) = reset a := by
  ext1
  · rw [reset_chunks (reset a), resetChunksSpec_reset]
  · rw [reset_chunkSize, reset_chunkSize]
  · rw [reset_chunkIndex, reset_chunkIndex]
  · rw [reset_offset, reset_offset]
  · rw [reset_curStartIdx, reset_curStartIdx]
  · rw [reset_curEnd (reset a), reset_curEnd a, reset_chunks (reset a), resetChunksSpec_reset]
  · rw [reset_maxRetain, reset_maxRetain]

/-- C5 counterexample: the claim says replaying an identical workload right
after a reset never grows the chunk store beyond the high-water mark of the
previous session and allocates nothing new when the reset retained every
chunk.  Starting from the post-reset store [4, 4], the one-request session
(10 bytes) ends with the three chunks [4, 4, 11]; the reset retains all of
them; yet the replay of the same request appends a fourth chunk, because
`ensure` only inspects the chunk immediately after the active one (the 4-byte
chunk) and never reaches the retained 11-byte chunk. -/
theorem c5_replay_grows_store :
    (runSession (reset (runSession (mkArena 4 100) [(4, 1), (3, 1)])) [(10, 1)]).chunks.length = 3 ∧
    (reset (runSession (reset (runSession (mkArena 4 100) [(4, 1), (3, 1)])) [(10, 1)])).chunks
      = (runSession (reset (runSession (mkArena 4 100) [(4, 1), (3, 1)])) [(10, 1)]).chunks ∧
    (runSession
      (reset (runSession (reset (runSession (mkArena 4 100) [(4, 1), (3, 1)])) [(10, 1)]))
      [(10, 1)]).chunks.length = 4 := by
  refine ⟨?_, ?_, ?_⟩ <;> decide

end ArenaModel

namespace ArenaModel

theorem step_nonpos (a : Arena) (r : Int × Int) (h0 : r.1 ≤ 0) : step a r = a := by
  unfold step allocRaw
  rw [if_pos h0]

theorem step_eq_fast (a : Arena) (r : Int × Int) (h0 : ¬ r.1 ≤ 0)
    (hc : a.offset + Int.emod (-a.offset) (if r.2 ≤ 0 then 1 else r.2) + r.1 ≤ a.curEnd) :
    step a r
      = { a with offset := a.offset + Int.emod (-a.offset) (if r.2 ≤ 0 then 1 else r.2) + r.1 } := by
  unfold step allocRaw allocTry
  rw [if_neg h0]
  simp only [if_pos hc]

theorem step_eq_grow (a : Arena) (r : Int × Int) (h0 : ¬ r.1 ≤ 0)
    (hc : ¬ a.offset + Int.emod (-a.offset) (if r.2 ≤ 0 then 1 else r.2) + r.1 ≤ a.curEnd) :
    step a r
      = (allocTry (ensure a (r.1 + (if r.2 ≤ 0 then 1 else r.2))) r.1
          (if r.2 ≤ 0 then 1 else r.2)).1 := by
  unfold step allocRaw
  rw [if_neg h0]
  simp only [allocTry]
  rw [if_neg hc]
  rfl

theorem ensure_early (a : Arena) (s' : Int)
    (hg : s' ≤ capAt a.chunks a.chunkIndex - a.offset) : ensure a s' = a := by
  unfold ensure; rw [if_pos hg]

theorem ensure_switch (a : Arena) (s' : Int)
    (hg : ¬ s' ≤ capAt a.chunks a.chunkIndex - a.offset)
    (hlt : a.chunkIndex + 1 < a.chunks.length)
    (hcap : s' ≤ capAt a.chunks (a.chunkIndex + 1)) :
    ensure a s' = { a with chunkIndex := a.chunkIndex + 1, offset := 0, curStartIdx := a.chunkIndex + 1, curEnd := capAt a.chunks (a.chunkIndex + 1) } := by
  unfold ensure; rw [if_neg hg, if_pos hlt, if_pos hcap]

theorem ensure_append_small (a : Arena) (s' : Int)
    (hg : ¬ s' ≤ capAt a.chunks a.chunkIndex - a.offset)
    (hlt : a.chunkIndex + 1 < a.chunks.length)
    (hcap : ¬ s' ≤ capAt a.chunks (a.chunkIndex + 1)) :
    ensure a s' = appendChunk a s' := by
  unfold ensure; rw [if_neg hg, if_pos hlt, if_neg hcap]

theorem ensure_append_last (a : Arena) (s' : Int)
    (hg : ¬ s' ≤ capAt a.chunks a.chunkIndex - a.offset)
    (hlast : ¬ a.chunkIndex + 1 < a.chunks.length) :
    ensure a s' = appendChunk a s' := by
  unfold ensure; rw [if_neg hg, if_neg hlast]

theorem allocTry_fst_chunks (a : Arena) (size al : Int) :
    (allocTry a size al).1.chunks = a.chunks := by
  simp only [allocTry]; split <;> rfl

theorem allocTry_fst_chunkIndex (a : Arena) (size al : Int) :
    (allocTry a size al).1.chunkIndex = a.chunkIndex := by
  simp only [allocTry]; split <;> rfl

theorem allocTry_fst_chunkSize (a : Arena) (size al : Int) :
    (allocTry a size al).1.chunkSize = a.chunkSize := by
  simp only [allocTry]; split <;> rfl

theorem allocTry_fst_curEnd (a : Arena) (size al : Int) :
    (allocTry a size al).1.curEnd = a.curEnd := by
  simp only [allocTry]; split <;> rfl

theorem ensure_chunkSize (a : Arena) (s' : Int) : (ensure a s').chunkSize = a.chunkSize := by
  unfold ensure appendChunk; repeat' split
  all_goals rfl

theorem step_lastChunkActive (a : Arena) (r : Int × Int)
    (h : a.chunkIndex + 1 = a.chunks.length) :
    (step a r).chunkIndex + 1 = (step a r).chunks.length := by
  by_cases h0 : r.1 ≤ 0
  · rw [step_nonpos a r h0]; exact h
  · by_cases hc : a.offset + Int.emod (-a.offset) (if r.2 ≤ 0 then 1 else r.2) + r.1 ≤ a.curEnd
    · rw [step_eq_fast a r h0 hc]; exact h
    · rw [step_eq_grow a r h0 hc]
      rw [allocTry_fst_chunks, allocTry_fst_chunkIndex]
      by_cases hg : r.1 + (if r.2 ≤ 0 then 1 else r.2)
          ≤ capAt a.chunks a.chunkIndex - a.offset
      · rw [ensure_early a _ hg]; exact h
      · rw [ensure_append_last a _ hg (by omega)]
        unfold appendChunk
        simp [List.length_append, h]

theorem step_chunks_extend (a : Arena) (r : Int × Int) :
    (step a r).chunks = a.chunks ∨ ∃ m, (step a r).chunks = a.chunks ++ [m] := by
  by_cases h0 : r.1 ≤ 0
  · rw [step_nonpos a r h0]; exact Or.inl rfl
  · by_cases hc : a.offset + Int.emod (-a.offset) (if r.2 ≤ 0 then 1 else r.2) + r.1 ≤ a.curEnd
    · rw [step_eq_fast a r h0 hc]; exact Or.inl rfl
    · rw [step_eq_grow a r h0 hc, allocTry_fst_chunks]
      by_cases hg : r.1 + (if r.2 ≤ 0 then 1 else r.2)
          ≤ capAt a.chunks a.chunkIndex - a.offset
      · rw [ensure_early a _ hg]; exact Or.inl rfl
      · by_cases hlt : a.chunkIndex + 1 < a.chunks.length
        · by_cases hcap : r.1 + (if r.2 ≤ 0 then 1 else r.2)
              ≤ capAt a.chunks (a.chunkIndex + 1)
          · rw [ensure_switch a _ hg hlt hcap]; exact Or.inl rfl
          · rw [ensure_append_small a _ hg hlt hcap]; exact Or.inr ⟨_, rfl⟩
        · rw [ensure_append_last a _ hg hlt]; exact Or.inr ⟨_, rfl⟩

theorem step_chunkSize (a : Arena) (r : Int × Int) : (step a r).chunkSize = a.chunkSize := by
  by_cases h0 : r.1 ≤ 0
  · rw [step_nonpos a r h0]
  · by_cases hc : a.offset + Int.emod (-a.offset) (if r.2 ≤ 0 then 1 else r.2) + r.1 ≤ a.curEnd
    · rw [step_eq_fast a r h0 hc]
    · rw [step_eq_grow a r h0 hc, allocTry_fst_chunkSize, ensure_chunkSize]

theorem run_chunkSize : ∀ (w : List (Int × Int)) (a : Arena),
    (runSession a w).chunkSize = a.chunkSize
  | [], a => rfl
  | r :: w, a => by
    have h1 : runSession a (r :: w) = runSession (step a r) w := rfl
    rw [h1, run_chunkSize w (step a r), step_chunkSize]

/-- During a session that keeps its cursor on the last chunk, the chunk list
only ever grows at the end: the state before the session is an initial segment
of the final chunk list. -/
theorem run_take : ∀ (w : List (Int × Int)) (s : Arena),
    s.chunkIndex + 1 = s.chunks.length →
    (runSession s w).chunks.take s.chunks.length = s.chunks
  | [], s, _ => by simp [runSession]
  | r :: w, s, h => by
    have h1 := step_lastChunkActive s r h
    have ih := run_take w (step s r) h1
    have hrun : runSession s (r :: w) = runSession (step s r) w := rfl
    rw [hrun]
    rcases step_chunks_extend s r with he | ⟨m, he⟩
    · rw [he] at ih
      exact ih
    · rw [he] at ih
      have hmin : s.chunks.length ⊓ (s.chunks ++ [m]).length = s.chunks.length := by
        simp [List.length_append]
      calc (runSession (step s r) w).chunks.take s.chunks.length
        = ((runSession (step s r) w).chunks.take (s.chunks ++ [m]).length).take
            s.chunks.length := by rw [List.take_take, hmin]
      _ = (s.chunks ++ [m]).take s.chunks.length := by rw [ih]
      _ = s.chunks := List.take_left s.chunks [m]

end ArenaModel

namespace ArenaModel

theorem allocTry_ok (a : Arena) (size al : Int)
    (h : a.offset + Int.emod (-a.offset) al + size ≤ a.curEnd) :
    allocTry a size al = ({ a with offset := a.offset + Int.emod (-a.offset) al + size },
      some ⟨a.curStartIdx, a.offset + Int.emod (-a.offset) al, size⟩) := by
  simp only [allocTry]
  rw [if_pos h]

theorem allocTry_fail (a : Arena) (size al : Int)
    (h : ¬ a.offset + Int.emod (-a.offset) al + size ≤ a.curEnd) :
    allocTry a size al = (a, none) := by
  simp only [allocTry]
  rw [if_neg h]

theorem appendChunk_chunks (a : Arena) (s' : Int) :
    (appendChunk a s').chunks = a.chunks ++ [if s' > a.chunkSize then s' else a.chunkSize] := rfl

theorem appendChunk_chunkIndex (a : Arena) (s' : Int) :
    (appendChunk a s').chunkIndex = a.chunkIndex + 1 := rfl

theorem appendChunk_offset (a : Arena) (s' : Int) : (appendChunk a s').offset = 0 := rfl

theorem appendChunk_curEnd (a : Arena) (s' : Int) :
    (appendChunk a s').curEnd = if s' > a.chunkSize then s' else a.chunkSize := rfl

theorem appendChunk_chunkSize (a : Arena) (s' : Int) :
    (appendChunk a s').chunkSize = a.chunkSize := rfl

theorem capAt_take (L : List Int) (n i : Nat) (h : i < n) :
    capAt (L.take n) i = capAt L i := by
  unfold capAt
  rw [List.getD_eq_getElem?_getD, List.getD_eq_getElem?_getD, List.getElem?_take, if_pos h]

/-- Simulation relation between the state `s` of a session run on a fresh
arena and the state `t` of the identical session replayed after a reset that
kept the first `keep` chunks; `L` is the final chunk list of the fresh run. -/
structure Rel (keep : Nat) (L : List Int) (s t : Arena) : Prop where
  inv : s.chunkIndex + 1 = s.chunks.length
  schunks : s.chunks = L.take (s.chunkIndex + 1)
  hidx : t.chunkIndex = s.chunkIndex
  hoff : t.offset = s.offset
  hend : t.curEnd = s.curEnd
  tchunks : t.chunks = L.take (max (s.chunkIndex + 1) keep)
  hsize : t.chunkSize = s.chunkSize
  hkeep : keep ≤ L.length

theorem Rel.lt_len {keep : Nat} {L : List Int} {s t : Arena} (h : Rel keep L s t) :
    s.chunkIndex + 1 ≤ L.length := by
  have h2 : s.chunks.length = (L.take (s.chunkIndex + 1)).length := by rw [h.schunks]
  rw [List.length_take] at h2
  have := h.inv
  omega

end ArenaModel

namespace ArenaModel

theorem int_emod_zero_left (b : Int) : Int.emod 0 b = 0 := Int.zero_emod b

theorem capAt_append_self (xs : List Int) (m : Int) : capAt (xs ++ [m]) xs.length = m := by
  unfold capAt
  rw [List.getD_eq_getElem?_getD, List.getElem?_append_right (le_refl _)]
  simp

/-- One-step simulation through the growth policy: when the bump fast path has
failed on both sides, the fresh-run state appends a chunk (its cursor is on the
last chunk) and the replay state either switches into the identical retained
chunk or appends the identical chunk. -/
theorem grow_rel (keep : Nat) (L : List Int) (s t : Arena) (size al : Int)
    (hal1 : 1 ≤ al)
    (hR : Rel keep L s t)
    (hs2 : (allocTry (ensure s (size + al)) size al).1.chunks
      = L.take ((allocTry (ensure s (size + al)) size al).1.chunkIndex + 1)) :
    Rel keep L (allocTry (ensure s (size + al)) size al).1
      (allocTry (ensure t (size + al)) size al).1 := by
  obtain ⟨inv, schunks, hidx, hoff, hend, tchunks, hsize, hkeep⟩ := hR
  have hlen : s.chunkIndex + 1 ≤ L.length :=
    Rel.lt_len ⟨inv, schunks, hidx, hoff, hend, tchunks, hsize, hkeep⟩
  have hcapEq : capAt t.chunks t.chunkIndex = capAt s.chunks s.chunkIndex := by
    rw [hidx, tchunks, schunks, capAt_take _ _ _ (by omega),
      capAt_take _ _ _ (by omega)]
  by_cases hg : size + al ≤ capAt s.chunks s.chunkIndex - s.offset
  · have hgt : size + al ≤ capAt t.chunks t.chunkIndex - t.offset := by
      rw [hcapEq, hoff]; exact hg
    rw [ensure_early s _ hg, ensure_early t _ hgt]
    by_cases hf : s.offset + Int.emod (-s.offset) al + size ≤ s.curEnd
    · have hft : t.offset + Int.emod (-t.offset) al + size ≤ t.curEnd := by
        rw [hoff, hend]; exact hf
      rw [allocTry_ok s size al hf, allocTry_ok t size al hft]
      exact ⟨inv, schunks, hidx, by rw [hoff], hend, tchunks, hsize, hkeep⟩
    · have hft : ¬ t.offset + Int.emod (-t.offset) al + size ≤ t.curEnd := by
        rw [hoff, hend]; exact hf
      rw [allocTry_fail s size al hf, allocTry_fail t size al hft]
      exact ⟨inv, schunks, hidx, hoff, hend, tchunks, hsize, hkeep⟩
  · have hgt : ¬ size + al ≤ capAt t.chunks t.chunkIndex - t.offset := by
      rw [hcapEq, hoff]; exact hg
    have hlast : ¬ s.chunkIndex + 1 < s.chunks.length := by omega
    rw [ensure_append_last s _ hg hlast] at hs2 ⊢
    have hms : size + al ≤ (if size + al > s.chunkSize then size + al else s.chunkSize) := by
      split <;> omega
    have hfs : (appendChunk s (size + al)).offset
        + Int.emod (-(appendChunk s (size + al)).offset) al + size
        ≤ (appendChunk s (size + al)).curEnd := by
      rw [appendChunk_offset, appendChunk_curEnd]
      simp only [neg_zero, int_emod_zero_left]
      omega
    rw [allocTry_ok _ size al hfs] at hs2 ⊢
    simp only [appendChunk_chunks, appendChunk_chunkIndex] at hs2
    have hlen2 : s.chunkIndex + 1 + 1 ≤ L.length := by
      have hl := congrArg List.length hs2
      rw [List.length_append, List.length_take] at hl
      simp only [List.length_cons, List.length_nil] at hl
      omega
    have hmL : capAt L (s.chunkIndex + 1)
        = (if size + al > s.chunkSize then size + al else s.chunkSize) := by
      rw [← capAt_take L (s.chunkIndex + 1 + 1) (s.chunkIndex + 1) (by omega), ← hs2, inv]
      exact capAt_append_self _ _
    by_cases hsw : t.chunkIndex + 1 < t.chunks.length
    · have hswk : s.chunkIndex + 1 + 1 ≤ keep := by
        rw [hidx, tchunks, List.length_take] at hsw
        omega
      have hcap2 : capAt t.chunks (t.chunkIndex + 1)
          = (if size + al > s.chunkSize then size + al else s.chunkSize) := by
        rw [hidx, tchunks, capAt_take _ _ _ (by omega), hmL]
      have hswcap : size + al ≤ capAt t.chunks (t.chunkIndex + 1) := by
        rw [hcap2]; exact hms
      rw [ensure_switch t _ hgt hsw hswcap]
      have hft : ((0 : Int)) + Int.emod (-(0 : Int)) al + size
          ≤ capAt t.chunks (t.chunkIndex + 1) := by
        simp only [neg_zero, int_emod_zero_left]
        rw [hcap2]; omega
      rw [allocTry_ok _ size al hft]
      refine ⟨?_, hs2, ?_, ?_, ?_, ?_, ?_, hkeep⟩
      · show s.chunkIndex + 1 + 1
          = (s.chunks ++ [if size + al > s.chunkSize then size + al else s.chunkSize]).length
        rw [List.length_append]
        simp only [List.length_cons, List.length_nil]
        omega
      · show t.chunkIndex + 1 = s.chunkIndex + 1
        rw [hidx]
      · show (0 : Int) + Int.emod (-(0 : Int)) al + size
          = (0 : Int) + Int.emod (-(0 : Int)) al + size
        rfl
      · show capAt t.chunks (t.chunkIndex + 1)
          = (if size + al > s.chunkSize then size + al else s.chunkSize)
        exact hcap2
      · show t.chunks = L.take (max (s.chunkIndex + 1 + 1) keep)
        rw [tchunks]
        congr 1
        omega
      · show t.chunkSize = s.chunkSize
        exact hsize
    · have hkle : keep ≤ s.chunkIndex + 1 := by
        rw [hidx, tchunks, List.length_take] at hsw
        omega
      have htch : t.chunks = s.chunks := by
        rw [tchunks, schunks]
        congr 1
        omega
      rw [ensure_append_last t _ hgt hsw]
      have hmt : (if size + al > t.chunkSize then size + al else t.chunkSize)
          = (if size + al > s.chunkSize then size + al else s.chunkSize) := by
        rw [hsize]
      have hft : (appendChunk t (size + al)).offset
          + Int.emod (-(appendChunk t (size + al)).offset) al + size
          ≤ (appendChunk t (size + al)).curEnd := by
        rw [appendChunk_offset, appendChunk_curEnd]
        simp only [neg_zero, int_emod_zero_left]
        rw [hmt]
        omega
      rw [allocTry_ok _ size al hft]
      refine ⟨?_, hs2, ?_, ?_, ?_, ?_, ?_, hkeep⟩
      · show s.chunkIndex + 1 + 1
          = (s.chunks ++ [if size + al > s.chunkSize then size + al else s.chunkSize]).length
        rw [List.length_append]
        simp only [List.length_cons, List.length_nil]
        omega
      · show t.chunkIndex + 1 = s.chunkIndex + 1
        rw [hidx]
      · show (0 : Int) + Int.emod (-(0 : Int)) al + size
          = (0 : Int) + Int.emod (-(0 : Int)) al + size
        rfl
      · show (if size + al > t.chunkSize then size + al else t.chunkSize)
          = (if size + al > s.chunkSize then size + al else s.chunkSize)
        exact hmt
      · show t.chunks ++ [if size + al > t.chunkSize then size + al else t.chunkSize]
          = L.take (max (s.chunkIndex + 1 + 1) keep)
        rw [hmt, htch, hs2]
        congr 1
        omega
      · show t.chunkSize = s.chunkSize
        exact hsize

end ArenaModel

namespace ArenaModel

theorem step_rel (keep : Nat) (L : List Int) (s t : Arena) (r : Int × Int)
    (hR : Rel keep L s t)
    (hs2 : (step s r).chunks = L.take ((step s r).chunkIndex + 1)) :
    Rel keep L (step s r) (step t r) := by
  by_cases h0 : r.1 ≤ 0
  · rw [step_nonpos s r h0, step_nonpos t r h0]
    exact hR
  · by_cases hc : s.offset + Int.emod (-s.offset) (if r.2 ≤ 0 then 1 else r.2) + r.1 ≤ s.curEnd
    · have hct : t.offset + Int.emod (-t.offset) (if r.2 ≤ 0 then 1 else r.2) + r.1
          ≤ t.curEnd := by
        rw [hR.hoff, hR.hend]; exact hc
      rw [step_eq_fast s r h0 hc, step_eq_fast t r h0 hct]
      exact ⟨hR.inv, hR.schunks, hR.hidx, by rw [hR.hoff], hR.hend, hR.tchunks, hR.hsize,
        hR.hkeep⟩
    · have hct : ¬ t.offset + Int.emod (-t.offset) (if r.2 ≤ 0 then 1 else r.2) + r.1
          ≤ t.curEnd := by
        rw [hR.hoff, hR.hend]; exact hc
      rw [step_eq_grow s r h0 hc] at hs2
      rw [step_eq_grow s r h0 hc, step_eq_grow t r h0 hct]
      exact grow_rel keep L s t r.1 (if r.2 ≤ 0 then 1 else r.2) (by split <;> omega) hR hs2

theorem run_lastChunkActive : ∀ (w : List (Int × Int)) (a : Arena),
    a.chunkIndex + 1 = a.chunks.length →
    (runSession a w).chunkIndex + 1 = (runSession a w).chunks.length
  | [], _, h => h
  | r :: w, a, h => run_lastChunkActive w (step a r) (step_lastChunkActive a r h)

/-- The replay of a workload from a reset state tracks the fresh run step by
step. -/
theorem sim_replay : ∀ (w : List (Int × Int)) (s t : Arena) (keep : Nat),
    Rel keep ((runSession s w).chunks) s t →
    Rel keep ((runSession s w).chunks) (runSession s w) (runSession t w)
  | [], _, _, _, h => h
  | r :: w, s, t, keep, h => by
    have hrun : runSession s (r :: w) = runSession (step s r) w := rfl
    have hrunT : runSession t (r :: w) = runSession (step t r) w := rfl
    rw [hrun] at h ⊢
    rw [hrunT]
    have hInv2 : (step s r).chunkIndex + 1 = (step s r).chunks.length :=
      step_lastChunkActive s r h.inv
    have hpre := run_take w (step s r) hInv2
    rw [← hInv2] at hpre
    exact sim_replay w (step s r) (step t r) keep (step_rel keep _ s t r h hpre.symm)

theorem keepScan_one_le (budget : Int) : ∀ (cs : List Int) (total : Int) (k : Nat),
    keepScan budget total cs = some k → 1 ≤ k
  | [], total, k, h => by simp [keepScan] at h
  | c :: cs, total, k, h => by
    unfold keepScan at h
    split at h
    · rw [Option.some_inj] at h
      omega
    · rw [Option.map_eq_some'] at h
      obtain ⟨j, _, hj⟩ := h
      omega

/-- For an arena whose first chunk still has the base capacity, the chunk list
a reset leaves behind is an initial segment of at least one chunk. -/
theorem reset_chunks_take_form (a : Arena) (hne : ¬ a.chunks.isEmpty)
    (hhead : capAt a.chunks 0 = a.chunkSize) :
    ∃ j, 1 ≤ j ∧ (reset a).chunks = a.chunks.take j := by
  have hlen1 : 1 ≤ a.chunks.length := by
    cases hc : a.chunks with
    | nil => rw [hc] at hne; simp at hne
    | cons c cs => simp
  by_cases h2 : capAt a.chunks 0 > a.maxRetain
  · refine ⟨1, le_refl 1, ?_⟩
    rw [reset_base_case a (Or.inr ⟨hne, h2⟩)]
    show [a.chunkSize] = a.chunks.take 1
    cases hc : a.chunks with
    | nil => rw [hc] at hne; simp at hne
    | cons c cs =>
      have hcc : c = a.chunkSize := by
        rw [hc] at hhead; exact hhead
      rw [List.take_succ_cons, List.take_zero, hcc]
  · refine ⟨keepIndexOf a.chunks a.maxRetain, ?_, ?_⟩
    · unfold keepIndexOf
      cases hscan : keepScan a.maxRetain 0 a.chunks with
      | none => simpa using hlen1
      | some k =>
        rw [Option.getD_some]
        exact keepScan_one_le a.maxRetain a.chunks 0 k hscan
    · rw [reset_chunks_walk a hne h2, ← take_keepScan]
      rfl

/-- C5 amended: for a workload whose first session starts on a freshly created
arena, replaying the identical workload right after the reset rebuilds exactly
the chunk list of the first session: the chunk count never exceeds the first
high-water mark, and when the reset retained every chunk the replay appends no
new chunk at all. -/
theorem c5_fresh_workload_replay (size maxRetained : Int) (w : List (Int × Int)) :
    (runSession (reset (runSession (mkArena size maxRetained) w)) w).chunks
        = (runSession (mkArena size maxRetained) w).chunks ∧
    (runSession (reset (runSession (mkArena size maxRetained) w)) w).chunks.length
        ≤ (runSession (mkArena size maxRetained) w).chunks.length ∧
    ((reset (runSession (mkArena size maxRetained) w)).chunks
        = (runSession (mkArena size maxRetained) w).chunks →
      (runSession (reset (runSession (mkArena size maxRetained) w)) w).chunks.length
        = (reset (runSession (mkArena size maxRetained) w)).chunks.length) := by
  set a0 : Arena := mkArena size maxRetained with ha0
  set s : Arena := runSession a0 w with hs
  have hInv0 : a0.chunkIndex + 1 = a0.chunks.length := rfl
  have hInvS : s.chunkIndex + 1 = s.chunks.length := run_lastChunkActive w a0 hInv0
  have htake1 : s.chunks.take 1 = [size] := run_take w a0 hInv0
  have hLne : s.chunks ≠ [] := by
    intro h; rw [h] at htake1; simp at htake1
  have hhead : capAt s.chunks 0 = size := by
    cases hL : s.chunks with
    | nil => exact absurd hL hLne
    | cons c cs =>
      rw [hL, List.take_succ_cons, List.take_zero] at htake1
      rw [List.cons_eq_cons] at htake1
      exact htake1.1
  have hssize : s.chunkSize = size := run_chunkSize w a0
  have hheadS : capAt s.chunks 0 = s.chunkSize := by rw [hssize]; exact hhead
  have hsne : ¬ s.chunks.isEmpty := by
    simp only [List.isEmpty_iff]
    exact hLne
  obtain ⟨j, hj1, hjch⟩ := reset_chunks_take_form s hsne hheadS
  have hlen1 : 1 ≤ s.chunks.length := by
    cases hL : s.chunks with
    | nil => exact absurd hL hLne
    | cons c cs => simp
  have hkeepch : (reset s).chunks = s.chunks.take ((reset s).chunks.length) := by
    rw [hjch, List.length_take]
    have h := List.take_take j s.chunks.length s.chunks
    rw [List.take_length] at h
    exact h
  have hkeep1 : 1 ≤ (reset s).chunks.length := by
    rw [hjch, List.length_take]
    omega
  have hkeeple : (reset s).chunks.length ≤ s.chunks.length := by
    rw [hjch, List.length_take]
    omega
  have hR0 : Rel ((reset s).chunks.length) s.chunks a0 (reset s) := by
    refine ⟨hInv0, ?_, ?_, ?_, ?_, ?_, ?_, hkeeple⟩
    · exact htake1.symm
    · rw [reset_chunkIndex]; rfl
    · rw [reset_offset]; rfl
    · rw [reset_curEnd s, hjch, capAt_take _ _ _ (by omega), hhead]; rfl
    · show (reset s).chunks = s.chunks.take (max (a0.chunkIndex + 1) ((reset s).chunks.length))
      have ha0i : a0.chunkIndex = 0 := rfl
      have hmax1 : max (a0.chunkIndex + 1) ((reset s).chunks.length)
          = (reset s).chunks.length := by omega
      rw [hmax1]
      exact hkeepch
    · rw [reset_chunkSize]; exact hssize.trans rfl
  have hfin := sim_replay w a0 (reset s) ((reset s).chunks.length) hR0
  have hmax : max (s.chunkIndex + 1) ((reset s).chunks.length) = s.chunks.length := by
    omega
  have hmain : (runSession (reset s) w).chunks = s.chunks := by
    have h := hfin.tchunks
    rw [← hs] at h
    rw [h, hmax, List.take_length]
  refine ⟨hmain, by rw [hmain], fun h => by rw [hmain, h]⟩

end ArenaModel

namespace ArenaModel

/-- State of the earlier arena variant contained in the repository (the
variant whose `allocAligned` the slice helpers `MakeSlice` and `Append` call);
it differs from `Arena` only in not caching the current chunk pointer. -/
structure OldArena where
  chunks : List Int
  chunkSize : Int
  chunkIndex : Nat
  offset : Int
  maxRetain : Int
deriving DecidableEq, Repr

/-- Append branch of `ensure` in the old variant. -/
def oldAppendChunk (a : OldArena) (size : Int) : OldArena :=
  let newSize := if size > a.chunkSize then size else a.chunkSize
  { a with chunks := a.chunks ++ [newSize], chunkIndex := a.chunkIndex + 1, offset := 0 }

/-- `ensure` of the old variant: same decision tree as the current one. -/
def oldEnsure (a : OldArena) (size : Int) : OldArena :=
  if size ≤ capAt a.chunks a.chunkIndex - a.offset then a
  else if a.chunkIndex + 1 < a.chunks.length then
    if size ≤ capAt a.chunks (a.chunkIndex + 1) then
      { a with chunkIndex := a.chunkIndex + 1, offset := 0 }
    else oldAppendChunk a size
  else oldAppendChunk a size

/-- `allocAligned` of the old variant: nil result for a non-positive size;
padding computed with the Go remainder (truncated, `Int.tmod`); when the
padded request does not fit the active chunk, `ensure` runs and the padding is
dropped; a second `ensure` guards the bump, and the byte range
`chunk[start:offset]` is returned.  The final slicing panics
(`Except.error`, carrying the state at the panic) when the new offset exceeds
the capacity of the chunk at the active index. -/
def allocAligned (a : OldArena) (size align : Int) :
    Except OldArena (OldArena × Option Region) :=
  if size ≤ 0 then Except.ok (a, none)
  else
    let al := if align ≤ 0 then 1 else align
    let padding := Int.tmod (al - Int.tmod a.offset al) al
    let p := if a.offset + padding + size > capAt a.chunks a.chunkIndex
             then (oldEnsure a size, (0 : Int))
             else (a, padding)
    let a2 : OldArena := { p.1 with offset := p.1.offset + p.2 }
    let a3 := oldEnsure a2 size
    if a3.offset + size ≤ capAt a3.chunks a3.chunkIndex then
      Except.ok ({ a3 with offset := a3.offset + size },
        some ⟨a3.chunkIndex, a3.offset, size⟩)
    else Except.error { a3 with offset := a3.offset + size }

/-- Signed 64-bit wrap-around, for the one product the source checks for
overflow. -/
def wrap64 (x : Int) : Int :=
  Int.emod (x + 2 ^ 63) (2 ^ 64) - 2 ^ 63

/-- Result of `MakeSlice`: the empty sequence for capacity 0, a runtime-made
sequence for a zero-sized element type, or an arena-backed sequence. -/
inductive SliceOut where
  | nilSeq : SliceOut
  | heap : Int → Int → SliceOut
  | seq : Region → Int → Int → SliceOut
deriving DecidableEq, Repr

/-- `MakeSlice` (element type represented by its size and alignment): argument
checks in source order, then the element-count-times-size product with its
overflow test (Go multiplication wraps, the division is truncated), then one
aligned raw allocation.  Panics are `Except.error` carrying the arena state at
the panic; all argument faults fire before any state mutation. -/
def makeSlice (a : OldArena) (length capacity elemSize elemAlign : Int) :
    Except OldArena (OldArena × SliceOut) :=
  if length < 0 ∨ capacity < 0 then Except.error a
  else if capacity < length then Except.error a
  else if capacity = 0 then Except.ok (a, SliceOut.nilSeq)
  else if elemSize = 0 then Except.ok (a, SliceOut.heap length capacity)
  else
    let total := wrap64 (elemSize * capacity)
    if ¬ Int.tdiv total elemSize = capacity then Except.error a
    else
      match allocAligned a total elemAlign with
      | Except.error e => Except.error e
      | Except.ok (a2, none) => Except.error a2
      | Except.ok (a2, some reg) => Except.ok (a2, SliceOut.seq reg length capacity)

/-- A Go slice value: its elements, its capacity, and the arena region backing
it (none for the nil slice and for runtime-made slices). -/
structure GoSlice (T : Type) where
  data : List T
  capacity : Nat
  backing : Option Region
deriving DecidableEq, Repr

/-- Built-in `copy`: the first min(len dst, len src) elements of dst are
replaced by those of src; dst keeps its length. -/
def copyList {T : Type} (dst src : List T) : List T :=
  src.take dst.length ++ dst.drop src.length

/-- `MakeSlice` at the slice-value level.  The contents of a fresh arena-backed
slice are unspecified stale bytes; the `default` placeholder stands for them
(nothing proved below depends on it, the copy performed by `Append` overwrites
every placeholder element), while a runtime-made slice is zero-initialised. -/
def makeSliceVal (T : Type) [Inhabited T] (a : OldArena)
    (length capacity elemSize elemAlign : Int) :
    Except OldArena (OldArena × GoSlice T) :=
  match makeSlice a length capacity elemSize elemAlign with
  | Except.error e => Except.error e
  | Except.ok (a2, SliceOut.nilSeq) => Except.ok (a2, ⟨[], 0, none⟩)
  | Except.ok (a2, SliceOut.heap len cap) =>
      Except.ok (a2, ⟨List.replicate len.toNat default, cap.toNat, none⟩)
  | Except.ok (a2, SliceOut.seq reg len cap) =>
      Except.ok (a2, ⟨List.replicate len.toNat default, cap.toNat, some reg⟩)

/-- `Append` from the slice helpers: unchanged for no items; the built-in
in-place append when the capacity suffices; otherwise a new sequence of
capacity max(2 x old capacity, needed length) is made in the arena, the old
contents are copied over, and the items are appended to the copy. -/
def appendSlice (T : Type) [Inhabited T] (a : OldArena) (s : GoSlice T) (items : List T)
    (elemSize elemAlign : Int) : Except OldArena (OldArena × GoSlice T) :=
  if items.length = 0 then Except.ok (a, s)
  else if s.data.length + items.length ≤ s.capacity then
    Except.ok (a, { s with data := s.data ++ items })
  else
    let needed := s.data.length + items.length
    let newCap := if s.capacity * 2 < needed then needed else s.capacity * 2
    match makeSliceVal T a (s.data.length : Int) (newCap : Int) elemSize elemAlign with
    | Except.error e => Except.error e
    | Except.ok (a2, ns) =>
        let copied := { ns with data := copyList ns.data s.data }
        Except.ok (a2, { copied with data := copied.data ++ items })

/-- Well-formed session state of the old variant: cursor on the last chunk,
offset within it. -/
def oldNormal (a : OldArena) : Prop :=
  a.chunkIndex + 1 = a.chunks.length ∧ 0 ≤ a.offset ∧ a.offset ≤ capAt a.chunks a.chunkIndex

/-- A region already handed out in state `a`: it lies in a chunk before the
active one, or in the active chunk entirely below the cursor. -/
def allocatedIn (a : OldArena) (r : Region) : Prop :=
  r.chunk < a.chunkIndex ∨
    (r.chunk = a.chunkIndex ∧ 0 ≤ r.start ∧ r.start + r.size ≤ a.offset)

end ArenaModel

namespace ArenaModel

theorem wrap64_eq_self (x : Int) (h1 : -(2 ^ 63) ≤ x) (h2 : x < 2 ^ 63) : wrap64 x = x := by
  show (x + 2 ^ 63) % 2 ^ 64 - 2 ^ 63 = x
  rw [Int.emod_eq_of_lt (by omega) (by omega)]
  omega

/-- When the mathematical product really overflows, the back-division check of
the source detects it. -/
theorem tdiv_overflow_ne (es cap : Int) (hes : 1 ≤ es) (hcap : 1 ≤ cap)
    (hov : 2 ^ 63 ≤ es * cap) : Int.tdiv (wrap64 (es * cap)) es ≠ cap := by
  intro hdiv
  have hw1 : wrap64 (es * cap) < 2 ^ 63 := by
    show (es * cap + 2 ^ 63) % 2 ^ 64 - 2 ^ 63 < 2 ^ 63
    have h := Int.emod_lt_of_pos (es * cap + 2 ^ 63) (show (0:Int) < 2 ^ 64 by norm_num)
    omega
  by_cases hw0 : 0 ≤ wrap64 (es * cap)
  · have htd : Int.tdiv (wrap64 (es * cap)) es = wrap64 (es * cap) / es :=
      Int.tdiv_eq_ediv hw0 (by omega)
    rw [htd] at hdiv
    have hmod : 0 ≤ wrap64 (es * cap) % es := Int.emod_nonneg _ (by omega)
    have hde : es * (wrap64 (es * cap) / es) + wrap64 (es * cap) % es = wrap64 (es * cap) :=
      Int.ediv_add_emod _ _
    rw [hdiv] at hde
    omega
  · push_neg at hw0
    have h2 : Int.tdiv (-(wrap64 (es * cap))) es = - Int.tdiv (wrap64 (es * cap)) es :=
      Int.neg_tdiv _ _
    have h1 : 0 ≤ Int.tdiv (-(wrap64 (es * cap))) es := Int.tdiv_nonneg (by omega) (by omega)
    omega

theorem oldEnsure_early (a : OldArena) (s' : Int)
    (hg : s' ≤ capAt a.chunks a.chunkIndex - a.offset) : oldEnsure a s' = a := by
  unfold oldEnsure; rw [if_pos hg]

theorem oldEnsure_append_last (a : OldArena) (s' : Int)
    (hg : ¬ s' ≤ capAt a.chunks a.chunkIndex - a.offset)
    (hlast : ¬ a.chunkIndex + 1 < a.chunks.length) :
    oldEnsure a s' = oldAppendChunk a s' := by
  unfold oldEnsure; rw [if_neg hg, if_neg hlast]

theorem oldAppendChunk_chunks (a : OldArena) (s' : Int) :
    (oldAppendChunk a s').chunks
      = a.chunks ++ [if s' > a.chunkSize then s' else a.chunkSize] := rfl

theorem oldAppendChunk_chunkIndex (a : OldArena) (s' : Int) :
    (oldAppendChunk a s').chunkIndex = a.chunkIndex + 1 := rfl

theorem oldAppendChunk_offset (a : OldArena) (s' : Int) :
    (oldAppendChunk a s').offset = 0 := rfl

theorem oldAppendChunk_chunkSize (a : OldArena) (s' : Int) :
    (oldAppendChunk a s').chunkSize = a.chunkSize := rfl

/-- On a well-formed session state, `allocAligned` with a positive size always
succeeds, keeps the state well formed, and returns a region of the requested
size placed either in the active chunk at or beyond the old cursor, or in a
freshly appended chunk (located after every existing chunk). -/
theorem allocAligned_normal (a : OldArena) (size align : Int)
    (hn : oldNormal a) (hs : 0 < size) :
    ∃ a2 reg, allocAligned a size align = Except.ok (a2, some reg) ∧
      oldNormal a2 ∧ reg.size = size ∧ a2.chunkSize = a.chunkSize ∧
      ((reg.chunk = a.chunkIndex ∧ a.offset ≤ reg.start ∧
          a2.chunkIndex = a.chunkIndex) ∨
        (reg.chunk = a.chunks.length ∧ a2.chunkIndex = a.chunks.length)) := by
  obtain ⟨hinv, hoff0, hoffle⟩ := hn
  have hal1 : (1 : Int) ≤ (if align ≤ 0 then 1 else align) := by split <;> omega
  have hpadnn : 0 ≤ Int.tmod ((if align ≤ 0 then 1 else align)
      - Int.tmod a.offset (if align ≤ 0 then 1 else align))
      (if align ≤ 0 then 1 else align) := by
    apply Int.tmod_nonneg
    have h1 : 0 ≤ Int.tmod a.offset (if align ≤ 0 then 1 else align) :=
      Int.tmod_nonneg _ hoff0
    have h2 : Int.tmod a.offset (if align ≤ 0 then 1 else align)
        < (if align ≤ 0 then 1 else align) := Int.tmod_lt_of_pos _ (by omega)
    omega
  simp only [allocAligned]
  rw [if_neg (show ¬ size ≤ 0 by omega)]
  generalize hP : Int.tmod ((if align ≤ 0 then 1 else align)
      - Int.tmod a.offset (if align ≤ 0 then 1 else align))
      (if align ≤ 0 then 1 else align) = pad
  rw [hP] at hpadnn
  by_cases hfits : a.offset + pad + size > capAt a.chunks a.chunkIndex
  · rw [if_pos hfits]
    by_cases hg : size ≤ capAt a.chunks a.chunkIndex - a.offset
    · rw [oldEnsure_early a size hg]
      dsimp only
      have hg2 : size ≤ capAt ({ a with offset := a.offset + 0 } : OldArena).chunks
          ({ a with offset := a.offset + 0 } : OldArena).chunkIndex
          - ({ a with offset := a.offset + 0 } : OldArena).offset := by
        show size ≤ capAt a.chunks a.chunkIndex - (a.offset + 0)
        omega
      rw [oldEnsure_early ({ a with offset := a.offset + 0 }) size hg2]
      rw [if_pos (show a.offset + 0 + size ≤ capAt a.chunks a.chunkIndex by omega)]
      refine ⟨_, _, rfl, ⟨hinv, ?_, ?_⟩, rfl, rfl, Or.inl ⟨rfl, ?_, rfl⟩⟩
      · show (0 : Int) ≤ a.offset + 0 + size
        omega
      · show a.offset + 0 + size ≤ capAt a.chunks a.chunkIndex
        omega
      · show a.offset ≤ a.offset + 0
        omega
    · rw [oldEnsure_append_last a size hg (by omega)]
      dsimp only
      have hm : size ≤ (if size > a.chunkSize then size else a.chunkSize) := by
        split <;> omega
      have hcapm : capAt ((oldAppendChunk a size).chunks) (a.chunkIndex + 1)
          = (if size > a.chunkSize then size else a.chunkSize) := by
        rw [oldAppendChunk_chunks, hinv]
        exact capAt_append_self _ _
      have hg2 : size ≤ capAt ({ oldAppendChunk a size with
            offset := (oldAppendChunk a size).offset + 0 } : OldArena).chunks
          ({ oldAppendChunk a size with
            offset := (oldAppendChunk a size).offset + 0 } : OldArena).chunkIndex
          - ({ oldAppendChunk a size with
            offset := (oldAppendChunk a size).offset + 0 } : OldArena).offset := by
        show size ≤ capAt (oldAppendChunk a size).chunks (oldAppendChunk a size).chunkIndex
          - ((oldAppendChunk a size).offset + 0)
        rw [oldAppendChunk_chunkIndex, oldAppendChunk_offset, hcapm]
        omega
      rw [oldEnsure_early ({ oldAppendChunk a size with
        offset := (oldAppendChunk a size).offset + 0 }) size hg2]
      dsimp only
      rw [if_pos (show (oldAppendChunk a size).offset + 0 + size
          ≤ capAt (oldAppendChunk a size).chunks (oldAppendChunk a size).chunkIndex by
        rw [oldAppendChunk_chunkIndex, oldAppendChunk_offset, hcapm]
        omega)]
      refine ⟨_, _, rfl, ⟨?_, ?_, ?_⟩, rfl, ?_, Or.inr ⟨?_, ?_⟩⟩
      · show (oldAppendChunk a size).chunkIndex + 1 = (oldAppendChunk a size).chunks.length
        rw [oldAppendChunk_chunkIndex, oldAppendChunk_chunks, List.length_append]
        simp only [List.length_cons, List.length_nil]
        omega
      · show (0 : Int) ≤ (oldAppendChunk a size).offset + 0 + size
        rw [oldAppendChunk_offset]
        omega
      · show (oldAppendChunk a size).offset + 0 + size
            ≤ capAt (oldAppendChunk a size).chunks (oldAppendChunk a size).chunkIndex
        rw [oldAppendChunk_chunkIndex, oldAppendChunk_offset, hcapm]
        omega
      · show (oldAppendChunk a size).chunkSize = a.chunkSize
        exact oldAppendChunk_chunkSize a size
      · show (oldAppendChunk a size).chunkIndex = a.chunks.length
        rw [oldAppendChunk_chunkIndex, hinv]
      · show (oldAppendChunk a size).chunkIndex = a.chunks.length
        rw [oldAppendChunk_chunkIndex, hinv]
  · rw [if_neg hfits]
    dsimp only
    have hg2 : size ≤ capAt ({ a with offset := a.offset + pad } : OldArena).chunks
        ({ a with offset := a.offset + pad } : OldArena).chunkIndex
        - ({ a with offset := a.offset + pad } : OldArena).offset := by
      show size ≤ capAt a.chunks a.chunkIndex - (a.offset + pad)
      omega
    rw [oldEnsure_early ({ a with offset := a.offset + pad }) size hg2]
    rw [if_pos (show a.offset + pad + size ≤ capAt a.chunks a.chunkIndex by omega)]
    refine ⟨_, _, rfl, ⟨hinv, ?_, ?_⟩, rfl, rfl, Or.inl ⟨rfl, ?_, rfl⟩⟩
    · show (0 : Int) ≤ a.offset + pad + size
      omega
    · show a.offset + pad + size ≤ capAt a.chunks a.chunkIndex
      omega
    · show a.offset ≤ a.offset + pad
      omega


end ArenaModel

namespace ArenaModel

/-- C7: `MakeSlice` requires 0 ≤ length ≤ capacity: a negative length, a
negative capacity, a capacity below the length, and an overflowing
capacity-times-element-size product each raise an invalid-argument fault
before any arena state mutation (the error carries the untouched input
state); capacity 0 returns the empty sequence with the cursor, and the whole
arena state, unmoved. -/
theorem c7_make_slice_guards (a : OldArena) (length capacity elemSize elemAlign : Int) :
    (length < 0 ∨ capacity < 0 ∨ capacity < length →
      makeSlice a length capacity elemSize elemAlign = Except.error a) ∧
    (capacity = 0 → 0 ≤ length → length ≤ capacity →
      makeSlice a length capacity elemSize elemAlign = Except.ok (a, SliceOut.nilSeq)) ∧
    (0 ≤ length → length ≤ capacity → 1 ≤ elemSize → 1 ≤ capacity →
      2 ^ 63 ≤ elemSize * capacity →
      makeSlice a length capacity elemSize elemAlign = Except.error a) := by
  refine ⟨?_, ?_, ?_⟩
  · intro h
    simp only [makeSlice]
    rcases h with h | h | h
    · rw [if_pos (Or.inl h)]
    · rw [if_pos (Or.inr h)]
    · by_cases h0 : length < 0 ∨ capacity < 0
      · rw [if_pos h0]
      · rw [if_neg h0, if_pos h]
  · intro hc h0 h1
    simp only [makeSlice]
    rw [if_neg (by omega), if_neg (by omega), if_pos hc]
  · intro h0 h1 hes hcap hov
    simp only [makeSlice]
    rw [if_neg (by omega), if_neg (by omega), if_neg (by omega), if_neg (by omega),
      if_pos (tdiv_overflow_ne elemSize capacity hes hcap hov)]

/-- Example state for the slice layer: one 16-byte chunk with the cursor at
offset 2. -/
def sliceArena : OldArena :=
  { chunks := [16], chunkSize := 16, chunkIndex := 0, offset := 2, maxRetain := 160 }

/-- Witness for C7 at concrete inputs. -/
theorem c7_make_slice_guards_witness :
    ((-1 : Int) < 0 ∨ (5 : Int) < 0 ∨ (5 : Int) < -1) ∧
    makeSlice sliceArena (-1) 5 1 1 = Except.error sliceArena ∧
    makeSlice sliceArena 0 0 1 1 = Except.ok (sliceArena, SliceOut.nilSeq) ∧
    2 ^ 63 ≤ (2 ^ 32 : Int) * 2 ^ 31 ∧
    makeSlice sliceArena 0 (2 ^ 31) (2 ^ 32) 1 = Except.error sliceArena :=
  ⟨Or.inl (by norm_num),
   (c7_make_slice_guards sliceArena (-1) 5 1 1).1 (Or.inl (by norm_num)),
   (c7_make_slice_guards sliceArena 0 0 1 1).2.1 rfl le_rfl le_rfl,
   by norm_num,
   (c7_make_slice_guards sliceArena 0 (2 ^ 31) (2 ^ 32) 1).2.2 le_rfl (by norm_num)
     (by norm_num) (by norm_num) (by norm_num)⟩

/-- On a well-formed state, a `MakeSlice` call with valid non-degenerate
arguments and a non-overflowing product succeeds and returns an arena-backed
sequence whose region is placed at or beyond the old cursor, or in a freshly
appended chunk. -/
theorem makeSlice_seq_ok (a : OldArena) (length capacity elemSize elemAlign : Int)
    (h0 : 0 ≤ length) (h1 : length ≤ capacity) (hcap : 1 ≤ capacity)
    (hes : 1 ≤ elemSize) (hov : elemSize * capacity < 2 ^ 63)
    (hn : oldNormal a) :
    ∃ a2 reg, makeSlice a length capacity elemSize elemAlign
        = Except.ok (a2, SliceOut.seq reg length capacity) ∧
      oldNormal a2 ∧ reg.size = elemSize * capacity ∧ a2.chunkSize = a.chunkSize ∧
      ((reg.chunk = a.chunkIndex ∧ a.offset ≤ reg.start ∧ a2.chunkIndex = a.chunkIndex) ∨
        (reg.chunk = a.chunks.length ∧ a2.chunkIndex = a.chunks.length)) := by
  have hprod : 0 < elemSize * capacity := mul_pos (by omega) (by omega)
  have htotal : wrap64 (elemSize * capacity) = elemSize * capacity :=
    wrap64_eq_self _ (by omega) hov
  have hdiv : Int.tdiv (wrap64 (elemSize * capacity)) elemSize = capacity := by
    rw [htotal]
    exact Int.mul_tdiv_cancel_left capacity (by omega)
  simp only [makeSlice]
  rw [if_neg (by omega), if_neg (by omega), if_neg (by omega), if_neg (by omega),
    if_neg (not_not_intro hdiv), htotal]
  obtain ⟨a2, reg, haa, hn2, hsize, hcs, hpos⟩ :=
    allocAligned_normal a (elemSize * capacity) elemAlign hn hprod
  rw [haa]
  exact ⟨a2, reg, rfl, hn2, hsize, hcs, hpos⟩

theorem copyList_full {T : Type} (dst src : List T) (h : dst.length = src.length) :
    copyList dst src = src := by
  unfold copyList
  rw [h, List.take_length, ← h, List.drop_length, List.append_nil]

end ArenaModel

namespace ArenaModel

/-- Behaviour of `Append` on states where the growth slip cannot fire (cursor
on the last chunk): in place when the capacity covers the combined length,
otherwise a new sequence of capacity max(2 x old capacity, new length) with
the old contents copied in order, the items appended, and a fresh backing
region disjoint from the original one.  This is the behaviour the claim
describes; the theorem after it shows the code abandons it on deeper retained
stores. -/
theorem appendSlice_wf_semantics (T : Type) [Inhabited T] (a : OldArena) (s : GoSlice T)
    (items : List T) (elemSize elemAlign : Int)
    (hwf : s.data.length ≤ s.capacity)
    (hes : 1 ≤ elemSize)
    (hnorm : oldNormal a)
    (hov : elemSize * ((max (2 * s.capacity) (s.data.length + items.length) : Nat) : Int)
      < 2 ^ 63) :
    (s.data.length + items.length ≤ s.capacity →
      appendSlice T a s items elemSize elemAlign
        = Except.ok (a, { s with data := s.data ++ items })) ∧
    (s.capacity < s.data.length + items.length →
      ∃ a2 ns, appendSlice T a s items elemSize elemAlign = Except.ok (a2, ns) ∧
        ns.data = s.data ++ items ∧
        ns.capacity = max (2 * s.capacity) (s.data.length + items.length) ∧
        ∃ rN, ns.backing = some rN ∧
          ∀ r0, s.backing = some r0 → allocatedIn a r0 → regionsDisjoint rN r0) := by
  constructor
  · intro hle
    simp only [appendSlice]
    by_cases h0 : items.length = 0
    · rw [if_pos h0]
      have hit : items = [] := List.length_eq_zero.mp h0
      subst hit
      simp
    · rw [if_neg h0, if_pos hle]
  · intro hgt
    have hil : items.length ≠ 0 := by omega
    simp only [appendSlice]
    rw [if_neg hil, if_neg (by omega)]
    have hnc : (if s.capacity * 2 < s.data.length + items.length
        then s.data.length + items.length else s.capacity * 2)
        = max (2 * s.capacity) (s.data.length + items.length) := by
      split <;> omega
    rw [hnc]
    obtain ⟨a2, reg, hms, hn2, hregsize, hcs, hpos⟩ :=
      makeSlice_seq_ok a (s.data.length : Int)
        ((max (2 * s.capacity) (s.data.length + items.length) : Nat) : Int) elemSize elemAlign
        (by exact_mod_cast Nat.zero_le s.data.length)
        (by exact_mod_cast (by omega :
          s.data.length ≤ max (2 * s.capacity) (s.data.length + items.length)))
        (by exact_mod_cast (by omega :
          1 ≤ max (2 * s.capacity) (s.data.length + items.length)))
        hes hov hnorm
    have hval : makeSliceVal T a (s.data.length : Int)
        ((max (2 * s.capacity) (s.data.length + items.length) : Nat) : Int)
        elemSize elemAlign
        = Except.ok (a2, ⟨List.replicate ((s.data.length : Int)).toNat default,
            (((max (2 * s.capacity) (s.data.length + items.length) : Nat) : Int)).toNat,
            some reg⟩) := by
      simp only [makeSliceVal]
      rw [hms]
    rw [hval]
    refine ⟨a2, _, rfl, ?_, ?_, ⟨reg, rfl, ?_⟩⟩
    · show copyList (List.replicate ((s.data.length : Int)).toNat default) s.data ++ items
        = s.data ++ items
      rw [copyList_full _ _ (by simp [Int.toNat_natCast])]
    · show (((max (2 * s.capacity) (s.data.length + items.length) : Nat) : Int)).toNat
        = max (2 * s.capacity) (s.data.length + items.length)
      exact Int.toNat_natCast _
    · intro r0 _ hr0
      rcases hpos with ⟨hch, hst, _⟩ | ⟨hch, _⟩
      · rcases hr0 with hlt | ⟨heq, hnn, hend⟩
        · exact Or.inl (by omega)
        · exact Or.inr (Or.inr (by omega))
      · have hlt : a.chunkIndex < a.chunks.length := by
          have := hnorm.1
          omega
        rcases hr0 with hlt2 | ⟨heq, _, _⟩
        · exact Or.inl (by omega)
        · exact Or.inl (by omega)

end ArenaModel

namespace ArenaModel

/-- Constructor body of the old arena variant (identical to `mkArena` without
the cached pointer fields). -/
def oldMkArena (size maxRetained : Int) : OldArena :=
  { chunks := [size], chunkSize := size, chunkIndex := 0, offset := 0, maxRetain := if maxRetained ≤ 0 then size * 10 else maxRetained }

/-- `Reset` of the old arena variant: same retention decision as `reset`,
without the cached pointer fields. -/
def oldReset (a : OldArena) : OldArena :=
  if a.chunks.isEmpty then
    { a with chunkIndex := 0, offset := 0, chunks := [a.chunkSize] }
  else if capAt a.chunks 0 > a.maxRetain then
    { a with chunkIndex := 0, offset := 0, chunks := [a.chunkSize] }
  else
    let k := keepIndexOf a.chunks a.maxRetain
    { a with chunkIndex := 0, offset := 0
             chunks := if k < a.chunks.length then a.chunks.take k else a.chunks }

/-- C6: the claim promises that a reallocating `Append` always makes the new
sequence and returns it, but the code can abort instead.  The whole run below
stays inside the public API of the variant the slice helpers build on: three
4-byte allocations grow a fresh 4-byte arena to the store [4, 4, 4]; `Reset`
with budget 100 retains all three chunks; `MakeSlice(2, 2)` then occupies the
first two bytes of chunk 0.  Appending seven elements must reallocate 9 bytes:
the first `ensure` appends a 9-byte chunk at the end of the list but advances
`chunkIndex` only onto the retained 4-byte chunk at position 1, the second
`ensure` repeats the slip onto position 2, and the final `chunk[0:9]` slicing
of that 4-byte chunk aborts the program (slice bounds out of range, the
`Except.error` below), so `Append` returns nothing at all. -/
theorem c6_append_reallocation_aborts :
    allocAligned (oldMkArena 4 100) 4 1
      = Except.ok (⟨[4], 4, 0, 4, 100⟩, some ⟨0, 0, 4⟩) ∧
    allocAligned ⟨[4], 4, 0, 4, 100⟩ 4 1
      = Except.ok (⟨[4, 4], 4, 1, 4, 100⟩, some ⟨1, 0, 4⟩) ∧
    allocAligned ⟨[4, 4], 4, 1, 4, 100⟩ 4 1
      = Except.ok (⟨[4, 4, 4], 4, 2, 4, 100⟩, some ⟨2, 0, 4⟩) ∧
    oldReset ⟨[4, 4, 4], 4, 2, 4, 100⟩ = ⟨[4, 4, 4], 4, 0, 0, 100⟩ ∧
    makeSliceVal Bool ⟨[4, 4, 4], 4, 0, 0, 100⟩ 2 2 1 1
      = Except.ok (⟨[4, 4, 4], 4, 0, 2, 100⟩, ⟨[false, false], 2, some ⟨0, 0, 2⟩⟩) ∧
    appendSlice Bool ⟨[4, 4, 4], 4, 0, 2, 100⟩ ⟨[false, false], 2, some ⟨0, 0, 2⟩⟩
        (List.replicate 7 true) 1 1
      = Except.error ⟨[4, 4, 4, 9, 9], 4, 2, 9, 100⟩ := by
  refine ⟨?_, ?_, ?_, ?_, ?_, ?_⟩ <;> rfl

end ArenaModel
